import Mathlib

/-!
# Verification of the heuristic tabular-structure inference engine

Shallow embedding of the text-table extraction core of
`src/app/api/upload/route.ts` (function `extractTableData`), restricted to
the pure text-processing paths the specification covers:

* the noisy (PDF-text) path: delimiter-based header detection over a
  5-line window, tolerant delimited-row extraction, and the
  pattern-frequency fallback;
* the clean (plain text / TSV) path: single-pass delimiter choice from the
  first line and exact-count row extraction.

Strings are modelled as `List Char`; JavaScript `String.prototype.split`
semantics (including the empty tokens it produces) are reproduced exactly.
The JS regex class `\s` is modelled by `Char.isWhitespace`
(space, tab, CR, LF — the characters that can actually occur in a line of
the split text).
-/

/-- A token / line: a JavaScript string, modelled as its character list. -/
abbrev Tok := List Char

/-- Whitespace, modelling the JS regex class `\s` on the characters that
can occur here. -/
def isWs (c : Char) : Bool := c.isWhitespace

/-- `splitGEAux k rest pend cur`: worker for `splitRunGE`.  `pend` is the
current pending whitespace run (reversed), `cur` the current token
(reversed). -/
def splitGEAux (k : Nat) : List Char → List Char → List Char → List (List Char)
  | [], pend, cur =>
    if k ≤ pend.length then [cur.reverse, []] else [(pend ++ cur).reverse]
  | c :: cs, pend, cur =>
    if isWs c then splitGEAux k cs (c :: pend) cur
    else if k ≤ pend.length then cur.reverse :: splitGEAux k cs [] [c]
    else splitGEAux k cs [] (c :: (pend ++ cur))

/-- JS `str.split(re)` where `re` is a whitespace run of length ≥ `k`:
`splitRunGE 2` models `split(/\s{2,}/)` and `splitRunGE 1` models
`split(/\s+/)`.  Leading/trailing matches produce empty tokens, exactly as
in JavaScript. -/
def splitRunGE (k : Nat) (l : List Char) : List (List Char) := splitGEAux k l [] []

/-- JS `str.split(d)` for a single-character separator `d`: splits at every
occurrence, keeping empty tokens (`"a,,b" ↦ ["a","","b"]`, `"" ↦ [""]`). -/
def splitOnChar (d : Char) : List Char → List (List Char)
  | [] => [[]]
  | c :: cs =>
    if c = d then [] :: splitOnChar d cs
    else
      match splitOnChar d cs with
      | [] => [[c]]
      | t :: ts => (c :: t) :: ts

/-- JS `str.trim()`: drop leading and trailing whitespace. -/
def trim (l : List Char) : List Char :=
  (((l.dropWhile isWs).reverse).dropWhile isWs).reverse

/-- JS `str.includes('  ')`: the line contains two consecutive literal
spaces (note: literal spaces, not general whitespace). -/
def hasDoubleSpace : List Char → Bool
  | ' ' :: ' ' :: _ => true
  | _ :: cs => hasDoubleSpace cs
  | [] => false

/-- Splitting raw text into non-blank lines
(`text.split('\n').filter(line => line.trim() !== '')`). -/
def normalizeLines (text : List Char) : List (List Char) :=
  (splitOnChar '\n' text).filter (fun l => decide (trim l ≠ []))

/-! ## Noisy path: delimiter-based header detection (route.ts 119–157) -/

/-- The three candidate delimiters of the noisy header detector. -/
inductive PDelim | space | comma | tab
  deriving DecidableEq, Repr

/-- Header-token split for the noisy path (route.ts 130/140/150 and
165–169): split by the delimiter, trim each token, drop tokens that are
empty after trimming — for all three delimiters. -/
def splitHeaderTokens : PDelim → List Char → List (List Char)
  | PDelim.space, l => (((splitRunGE 2 l).map trim).filter (fun t => decide (t ≠ [])))
  | PDelim.comma, l => (((splitOnChar ',' l).map trim).filter (fun t => decide (t ≠ [])))
  | PDelim.tab,   l => (((splitOnChar '\t' l).map trim).filter (fun t => decide (t ≠ [])))

/-- Data-row split for the noisy path (route.ts 178–182): space-run split
trims and drops empty tokens, but comma and tab splits only trim — they
keep empty tokens. -/
def splitRowTokens : PDelim → List Char → List (List Char)
  | PDelim.space, l => (((splitRunGE 2 l).map trim).filter (fun t => decide (t ≠ [])))
  | PDelim.comma, l => ((splitOnChar ',' l).map trim)
  | PDelim.tab,   l => ((splitOnChar '\t' l).map trim)

/-- The mutable best-candidate state of the header scan
(`bestHeaderLine` / `bestDelimiter` / `bestHeaderCount`). -/
structure BestState where
  line : Nat
  delim : PDelim
  count : Nat
  deriving DecidableEq, Repr

/-- One iteration of the header-scan loop body (route.ts 125–157): the
three delimiters are tried in program order space, comma, tab, each
guarded by its `includes` test, and the best is replaced only on a
strictly larger token count. -/
def considerLine (i : Nat) (l : List Char) (st : BestState) : BestState :=
  let st1 :=
    if hasDoubleSpace l then
      let n := (splitHeaderTokens PDelim.space l).length
      if st.count < n then ⟨i, PDelim.space, n⟩ else st
    else st
  let st2 :=
    if ',' ∈ l then
      let n := (splitHeaderTokens PDelim.comma l).length
      if st1.count < n then ⟨i, PDelim.comma, n⟩ else st1
    else st1
  if '\t' ∈ l then
    let n := (splitHeaderTokens PDelim.tab l).length
    if st2.count < n then ⟨i, PDelim.tab, n⟩ else st2
  else st2

/-- The header scan over the window of the first `min(5, lineCount)` lines
(route.ts 119–157), starting from the initial state
`(line 0, space, count 0)`. -/
def findBest (lines : List (List Char)) : BestState :=
  ((lines.take 5).enum).foldl (fun st p => considerLine p.1 p.2 st) ⟨0, PDelim.space, 0⟩

/-- The candidates the scan evaluates, in evaluation order: lines of the
window in order and, within a line, delimiters in order space, comma, tab,
each present only when its `includes` guard holds. -/
def candsOfLine (i : Nat) (l : List Char) : List BestState :=
  (if hasDoubleSpace l then [⟨i, PDelim.space, (splitHeaderTokens PDelim.space l).length⟩] else []) ++
  (if ',' ∈ l then [⟨i, PDelim.comma, (splitHeaderTokens PDelim.comma l).length⟩] else []) ++
  (if '\t' ∈ l then [⟨i, PDelim.tab, (splitHeaderTokens PDelim.tab l).length⟩] else [])

/-- All candidates of the header window, in evaluation order. -/
def candList (lines : List (List Char)) : List BestState :=
  ((lines.take 5).enum).flatMap (fun p => candsOfLine p.1 p.2)

/-! ## Rows (JS objects) -/

/-- A Row, modelling a JS `Record<string, string>` as an insertion-ordered
association list. -/
abbrev Row := List (Tok × Tok)

/-- The ordered key list of a Row (JS `Object.keys`). -/
def rowKeys (r : Row) : List Tok := r.map Prod.fst

/-- JS property assignment `row[k] = v`: update in place if the key
exists, else append. -/
def setKey (r : Row) (k v : Tok) : Row :=
  if r.any (fun p => decide (p.1 = k)) then
    r.map (fun p => if p.1 = k then (k, v) else p)
  else r ++ [(k, v)]

/-- Positional row construction (route.ts 187–192 and 241–244): assign
`row[headers[j]] = values[j]` for `j < min(headers.length, values.length)`
in increasing order of `j`. -/
def buildRow (hs vs : List Tok) : Row :=
  (hs.zip vs).foldl (fun r p => setKey r p.1 p.2) []

/-! ## Noisy path: tolerant row extraction (route.ts 174–196) -/

/-- The rows extracted from the lines after the header line (route.ts
176–196): a line contributes a row iff its token count `T` satisfies
`max 2 (H-1) ≤ T ≤ H+1` where `H` is the header count. -/
def rowsAfterHeader (d : PDelim) (hs : List Tok) (ls : List (List Char)) : List Row :=
  ls.filterMap (fun l =>
    let values := splitRowTokens d l
    if max 2 (hs.length - 1) ≤ values.length ∧ values.length ≤ hs.length + 1 then
      some (buildRow hs values)
    else none)

/-! ## Noisy path: pattern-frequency fallback (route.ts 207–254) -/

/-- Word count of a line (route.ts 213): `line.split(/\s+/).length` —
note the JS split keeps the empty tokens produced by leading or trailing
whitespace, and they are counted. -/
def wordCount (l : List Char) : Nat := (splitRunGE 1 l).length

/-- JS `Map.set(k, (get(k) || 0) + 1)` on an insertion-ordered map. -/
def histAdd (h : List (Nat × Nat)) (k : Nat) : List (Nat × Nat) :=
  if h.any (fun p => decide (p.1 = k)) then
    h.map (fun p => if p.1 = k then (k, p.2 + 1) else p)
  else h ++ [(k, 1)]

/-- The word-count histogram over all lines (route.ts 211–215), in Map
insertion order. -/
def wordHist (lines : List (List Char)) : List (Nat × Nat) :=
  lines.foldl (fun h l => histAdd h (wordCount l)) []

/-- The winner scan (route.ts 218–226): returns
`(mostCommonWordCount, highestFrequency)`, starting from `(0, 0)` and
replacing only on a strictly higher frequency, and only for word counts
`> 1`.  `Map.forEach` iterates in insertion order. -/
def selectCommon (h : List (Nat × Nat)) : Nat × Nat :=
  h.foldl (fun best p => if best.2 < p.2 ∧ 1 < p.1 then (p.1, p.2) else best) (0, 0)

/-- The synthesized generic headers `Column1 … ColumnN` (route.ts 233). -/
def genericHeaders (n : Nat) : List Tok :=
  (List.range n).map (fun i => ("Column" ++ toString (i + 1)).toList)

/-- The fallback rows (route.ts 238–247): one row per line whose
whitespace-token count equals `n`, assigning the words positionally to the
generic headers. -/
def patternRows (lines : List (List Char)) (n : Nat) : List Row :=
  lines.filterMap (fun l =>
    let words := splitRunGE 1 l
    if words.length = n then some (buildRow (genericHeaders n) words) else none)

/-- The pattern-frequency fallback extractor (route.ts 207–254), returning
the pair (headers, rows); `([], [])` models the empty "no table" result.
The TS function returns only the rows; the headers component is the
`genericHeaders` binding of route.ts 233. -/
def extractFallbackHR (lines : List (List Char)) : List Tok × List Row :=
  let sel := selectCommon (wordHist lines)
  if 3 ≤ sel.2 ∧ 2 ≤ sel.1 then
    let pr := patternRows lines sel.1
    if pr ≠ [] then (genericHeaders sel.1, pr) else ([], [])
  else ([], [])

/-- The full noisy-path extraction (route.ts 117–259): header detection,
tolerant row extraction when a header with at least 2 tokens was found and
at least one row matched, otherwise the pattern-frequency fallback.
Returns (headers, rows); the TS function returns only the rows and the
headers component is the internal `headers` binding of route.ts 165. -/
def extractNoisyHR (lines : List (List Char)) : List Tok × List Row :=
  if 1 < lines.length then
    let best := findBest lines
    if 2 ≤ best.count then
      let headers := splitHeaderTokens best.delim (lines.getD best.line [])
      let rows := rowsAfterHeader best.delim headers (lines.drop (best.line + 1))
      if rows ≠ [] then (headers, rows) else extractFallbackHR lines
    else extractFallbackHR lines
  else ([], [])

/-- Noisy extraction from raw text. -/
def extractNoisyText (text : List Char) : List Tok × List Row :=
  extractNoisyHR (normalizeLines text)

/-! ## Clean path: strict delimited-text extraction (route.ts 268–320) -/

/-- The delimiters of the clean path. -/
inductive CDelim | tab | comma | semi | ws
  deriving DecidableEq, Repr

/-- Single-pass delimiter choice from the first line (route.ts 277–292):
tab, else comma, else semicolon, else the generic-whitespace regex. -/
def chooseCleanDelim (l : List Char) : CDelim :=
  if '\t' ∈ l then CDelim.tab
  else if ',' ∈ l then CDelim.comma
  else if ';' ∈ l then CDelim.semi
  else CDelim.ws

/-- Clean-path split, used identically for the header line and for every
data line (route.ts 294–296 and 302–304): for a literal delimiter, split
and trim each token, keeping empty ones; for the whitespace regex, split
and drop tokens that trim to empty (without trimming the survivors, which
contain no whitespace anyway). -/
def splitClean : CDelim → List Char → List (List Char)
  | CDelim.tab,   l => ((splitOnChar '\t' l).map trim)
  | CDelim.comma, l => ((splitOnChar ',' l).map trim)
  | CDelim.semi,  l => ((splitOnChar ';' l).map trim)
  | CDelim.ws,    l => ((splitRunGE 1 l).filter (fun t => decide (trim t ≠ [])))

/-- The strict clean-text extractor (route.ts 268–320): the delimiter is
chosen once from the first line; a data line contributes a row iff its
token count exactly equals the header count.  Returns (headers, rows). -/
def extractClean (lines : List (List Char)) : List Tok × List Row :=
  if 1 < lines.length then
    let d := chooseCleanDelim (lines.getD 0 [])
    let headers := splitClean d (lines.getD 0 [])
    let rows := (lines.drop 1).filterMap (fun l =>
      let values := splitClean d l
      if values.length = headers.length then some (buildRow headers values) else none)
    (headers, rows)
  else ([], [])

/-- Clean extraction from raw text. -/
def extractCleanText (text : List Char) : List Tok × List Row :=
  extractClean (normalizeLines text)

/-! ## The try/catch wrapper (route.ts 70, 326–329) -/

/-- Models the try/catch wrapper of `extractTableData`: the body either
produces rows or raises an error, and the catch block at route.ts 326–329
converts any raised error into the empty row list — the same value that
represents "no table found". -/
def extractTableDataCaught (body : Except Tok (List Row)) : List Row :=
  match body with
  | Except.ok rows => rows
  | Except.error _ => []

/-! ## General helper lemmas -/

/-- A `filterMap` whose function is an if-some-else-none is a filter
followed by a map. -/
theorem filterMap_ite {α β : Type} (P : α → Prop) [DecidablePred P] (f : α → β)
    (l : List α) :
    (l.filterMap (fun a => if P a then some (f a) else none)) =
      (l.filter (fun a => decide (P a))).map f := by
  induction l with
  | nil => rfl
  | cons a t ih =>
    by_cases h : P a <;> simp [List.filterMap_cons, List.filter_cons, h, ih]

/-- The first components of a zip are a take of the first list. -/
theorem map_fst_zip_eq_take {α β : Type} (l₁ : List α) (l₂ : List β) :
    (l₁.zip l₂).map Prod.fst = l₁.take l₂.length := by
  induction l₁ generalizing l₂ with
  | nil => simp
  | cons a t ih =>
    cases l₂ with
    | nil => simp
    | cons b s => simp [List.zip_cons_cons, ih]

/-- The existence test of `setKey` / `histAdd` decides key membership. -/
theorem any_key_iff (r : Row) (k : Tok) :
    (r.any (fun p => decide (p.1 = k)) = true) ↔ k ∈ rowKeys r := by
  simp [List.any_eq_true, rowKeys, List.mem_map]

/-- Assigning a fresh key appends it. -/
theorem setKey_of_not_mem (r : Row) (k v : Tok) (h : k ∉ rowKeys r) :
    setKey r k v = r ++ [(k, v)] := by
  unfold setKey
  rw [if_neg]
  intro hc
  exact h ((any_key_iff r k).mp hc)

/-- Folding JS assignments of pairwise-distinct fresh keys over a row
appends the pairs in order. -/
theorem foldl_setKey_fresh (pairs : Row) (acc : Row)
    (hnd : (pairs.map Prod.fst).Nodup)
    (hdisj : ∀ k ∈ pairs.map Prod.fst, k ∉ rowKeys acc) :
    pairs.foldl (fun r p => setKey r p.1 p.2) acc = acc ++ pairs := by
  induction pairs generalizing acc with
  | nil => simp
  | cons p ps ih =>
    simp only [List.foldl_cons]
    rw [setKey_of_not_mem acc p.1 p.2 (hdisj p.1 (by simp))]
    rw [ih (acc ++ [(p.1, p.2)])]
    · simp
    · exact (List.nodup_cons.mp (by simpa using hnd)).2
    · intro k hk
      have hk1 : k ∉ rowKeys acc := hdisj k (by simp [hk])
      have hk2 : k ≠ p.1 := by
        intro he
        exact (List.nodup_cons.mp (by simpa using hnd)).1 (he ▸ hk)
      simp [rowKeys, List.map_append] at hk1 ⊢
      exact ⟨hk1, hk2⟩

/-- With pairwise-distinct headers, positional row construction is the
zip of headers and values (truncated at the shorter of the two). -/
theorem buildRow_eq_zip (hs vs : List Tok) (h : hs.Nodup) :
    buildRow hs vs = hs.zip vs := by
  unfold buildRow
  have hkeys : ((hs.zip vs).map Prod.fst) = hs.take vs.length :=
    map_fst_zip_eq_take hs vs
  have hnd : ((hs.zip vs).map Prod.fst).Nodup := by
    rw [hkeys]
    exact h.sublist (List.take_sublist _ _)
  have := foldl_setKey_fresh (hs.zip vs) [] hnd (by simp [rowKeys])
  simpa using this

/-! ## Header-scan machinery (claim C1) -/

/-- The replacement rule of the header scan: a candidate replaces the
current best only when its token count is strictly larger. -/
def bestStep (st c : BestState) : BestState := if st.count < c.count then c else st

/-- One loop iteration equals folding the replacement rule over the
candidates of that line, in delimiter evaluation order. -/
theorem considerLine_eq_foldl (i : Nat) (l : List Char) (st : BestState) :
    considerLine i l st = (candsOfLine i l).foldl bestStep st := by
  unfold considerLine candsOfLine bestStep
  by_cases h1 : hasDoubleSpace l <;> by_cases h2 : ',' ∈ l <;> by_cases h3 : '\t' ∈ l <;>
    simp [h1, h2, h3]

/-- Folding over a flatMap folds over each block in turn. -/
theorem foldl_flatMap {α β γ : Type} (f : α → List β) (g : γ → β → γ)
    (l : List α) (init : γ) :
    (l.flatMap f).foldl g init = l.foldl (fun st a => (f a).foldl g st) init := by
  induction l generalizing init with
  | nil => rfl
  | cons a t ih => simp [List.flatMap_cons, List.foldl_append, ih]

/-- The header scan is the replacement-rule fold over the candidate list
in evaluation order (line-major, delimiter-minor). -/
theorem findBest_eq_foldl (lines : List (List Char)) :
    findBest lines = (candList lines).foldl bestStep ⟨0, PDelim.space, 0⟩ := by
  unfold findBest candList
  rw [foldl_flatMap]
  congr 1
  funext st p
  exact considerLine_eq_foldl p.1 p.2 st

/-- Specification of the strict-improvement fold: the result dominates
every candidate's count, and it is either the initial state or the first
candidate in list order attaining its count (every earlier candidate has a
strictly smaller count). -/
theorem foldl_bestStep_spec (cands : List BestState) (init : BestState) :
    init.count ≤ (cands.foldl bestStep init).count ∧
    (∀ c ∈ cands, c.count ≤ (cands.foldl bestStep init).count) ∧
    (cands.foldl bestStep init = init ∨
      ∃ pre post, cands = pre ++ (cands.foldl bestStep init) :: post ∧
        init.count < (cands.foldl bestStep init).count ∧
        ∀ c ∈ pre, c.count < (cands.foldl bestStep init).count) := by
  induction cands generalizing init with
  | nil => simp
  | cons c cs ih =>
    simp only [List.foldl_cons]
    by_cases hc : init.count < c.count
    · have hb : bestStep init c = c := if_pos hc
      rw [hb]
      rcases ih c with ⟨h1, h2, h3⟩
      refine ⟨le_trans (le_of_lt hc) h1, ?_, ?_⟩
      · intro x hx
        rcases List.mem_cons.mp hx with rfl | hx'
        · exact h1
        · exact h2 x hx'
      · rcases h3 with he | ⟨pre, post, heq, hlt, hpre⟩
        · right
          refine ⟨[], cs, by rw [he]; simp, by rw [he]; exact hc, by simp⟩
        · right
          refine ⟨c :: pre, post, by simpa using congrArg (List.cons c) heq,
            lt_trans hc hlt, ?_⟩
          intro x hx
          rcases List.mem_cons.mp hx with rfl | hx'
          · exact hlt
          · exact hpre x hx'
    · have hb : bestStep init c = init := if_neg hc
      rw [hb]
      rcases ih init with ⟨h1, h2, h3⟩
      have hc' : c.count ≤ init.count := Nat.le_of_not_lt hc
      refine ⟨h1, ?_, ?_⟩
      · intro x hx
        rcases List.mem_cons.mp hx with rfl | hx'
        · exact le_trans hc' h1
        · exact h2 x hx'
      · rcases h3 with he | ⟨pre, post, heq, hlt, hpre⟩
        · left; exact he
        · right
          refine ⟨c :: pre, post, by simpa using congrArg (List.cons c) heq, hlt, ?_⟩
          intro x hx
          rcases List.mem_cons.mp hx with rfl | hx'
          · exact Nat.lt_of_le_of_lt hc' hlt
          · exact hpre x hx'

/-- Modelled from the spec's words, for comparison with the code in claim
C1: the tie-break order the claim states, namely highest token count
first, then earliest delimiter in evaluation order space, comma, tab, then
earliest line index. -/
def delimRank : PDelim → Nat
  | PDelim.space => 0
  | PDelim.comma => 1
  | PDelim.tab => 2

/-- Modelled from the spec's words (claim C1): candidate `a` beats
candidate `b` under the claim's order. -/
def specBetter (a b : BestState) : Bool :=
  b.count < a.count ∨
    (a.count = b.count ∧
      (delimRank a.delim < delimRank b.delim ∨
        (a.delim = b.delim ∧ a.line < b.line)))

/-- Modelled from the spec's words (claim C1): the winner under the
claim's tie-break order, over the same candidate list. -/
def specBest (lines : List (List Char)) : BestState :=
  (candList lines).foldl (fun st c => if specBetter c st then c else st) ⟨0, PDelim.space, 0⟩

/-- C1, counterexample.  The claim states that among equal token counts
the delimiter evaluation order space, comma, tab decides before the line
index.  On the two lines `"a,b,c"` and `"x  y  z"` the comma candidate at
line 0 and the space candidate at line 1 both have 3 tokens; the claim's
order picks the space candidate at line 1, but the scan keeps the comma
candidate at line 0, because the scan visits lines in the outer loop and
delimiters only in the inner conditionals. -/
theorem header_tiebreak_delimiter_first_refuted :
    findBest ["a,b,c".toList, "x  y  z".toList] = ⟨0, PDelim.comma, 3⟩ ∧
    specBest ["a,b,c".toList, "x  y  z".toList] = ⟨1, PDelim.space, 3⟩ ∧
    findBest ["a,b,c".toList, "x  y  z".toList] ≠
      specBest ["a,b,c".toList, "x  y  z".toList] := by decide

/-- C1, amended.  In the delimiter-based header detector the winner is
the candidate with the highest token count that occurs earliest in
evaluation order, which is line-major: ties are decided first by earliest
line index and only within the same line by delimiter evaluation order
space, comma, tab (the order of `candList`); a later candidate with an
equal or lower token count never replaces the current best.  Formally:
the scan result dominates every candidate's count, and it is either the
untouched initial state or the first candidate of `candList` attaining
its count — every candidate evaluated before it has a strictly smaller
count. -/
theorem header_tiebreak_line_major (lines : List (List Char)) :
    (∀ c ∈ candList lines, c.count ≤ (findBest lines).count) ∧
    (findBest lines = ⟨0, PDelim.space, 0⟩ ∨
      ∃ pre post, candList lines = pre ++ (findBest lines) :: post ∧
        ∀ c ∈ pre, c.count < (findBest lines).count) := by
  have h := foldl_bestStep_spec (candList lines) ⟨0, PDelim.space, 0⟩
  rw [← findBest_eq_foldl] at h
  refine ⟨h.2.1, ?_⟩
  rcases h.2.2 with he | ⟨pre, post, heq, _, hpre⟩
  · exact Or.inl he
  · exact Or.inr ⟨pre, post, heq, hpre⟩

/-- C2, counterexample.  The claim states that an unexpected internal
fault raised while extracting is reported distinctly from the "no table
found" empty result.  In the code the catch block at route.ts 326–329
converts any raised error into the empty row list, so a fault is
indistinguishable from the empty result. -/
theorem fault_indistinguishable_from_empty :
    extractTableDataCaught (Except.error "malformed encoding".toList) =
      extractTableDataCaught (Except.ok []) := rfl

/-- C2, amended.  Any unexpected internal fault raised while extracting
is caught by the wrapper and converted into the empty row list — the same
value as the "no table found" result — rather than being reported
distinctly to the caller. -/
theorem fault_swallowed_to_empty (e : Tok) :
    extractTableDataCaught (Except.error e) = [] := rfl

/-! ## Trim and split lemmas (claims C4, C5) -/

/-- The head of a dropWhile result fails the predicate. -/
theorem head?_dropWhile_not {α : Type} (p : α → Bool) (l : List α) :
    ∀ c, (l.dropWhile p).head? = some c → p c = false := by
  induction l with
  | nil => simp
  | cons a t ih =>
    intro c hc
    by_cases h : p a
    · rw [List.dropWhile_cons, if_pos h] at hc
      exact ih c hc
    · rw [List.dropWhile_cons, if_neg h] at hc
      simp at hc
      rw [← hc]
      simpa using h

/-- A list whose head fails the predicate is unchanged by dropWhile. -/
theorem dropWhile_eq_self_of_head? {α : Type} (p : α → Bool) (l : List α)
    (h : ∀ c, l.head? = some c → p c = false) : l.dropWhile p = l := by
  cases l with
  | nil => rfl
  | cons a t =>
    rw [List.dropWhile_cons, if_neg]
    simp [h a rfl]

/-- A nonempty dropWhile result keeps the last element of the list. -/
theorem getLast?_dropWhile {α : Type} (p : α → Bool) (l : List α)
    (h : l.dropWhile p ≠ []) : (l.dropWhile p).getLast? = l.getLast? := by
  induction l with
  | nil => simp at h
  | cons a t ih =>
    by_cases hp : p a
    · rw [List.dropWhile_cons, if_pos hp] at h ⊢
      rw [ih h]
      cases t with
      | nil => simp [List.dropWhile] at h
      | cons b s => rw [List.getLast?_cons_cons]
    · rw [List.dropWhile_cons, if_neg hp]

/-- JS `trim` is idempotent. -/
theorem trim_idem (l : List Char) : trim (trim l) = trim l := by
  unfold trim
  have h1 : ((((l.dropWhile isWs).reverse).dropWhile isWs).reverse).dropWhile isWs =
      (((l.dropWhile isWs).reverse).dropWhile isWs).reverse := by
    apply dropWhile_eq_self_of_head?
    intro c hc
    rw [List.head?_reverse] at hc
    have hne : ((l.dropWhile isWs).reverse).dropWhile isWs ≠ [] := by
      intro he
      rw [he] at hc
      simp at hc
    rw [getLast?_dropWhile isWs ((l.dropWhile isWs).reverse) hne] at hc
    rw [List.getLast?_reverse] at hc
    exact head?_dropWhile_not isWs l c hc
  rw [h1, List.reverse_reverse]
  congr 1
  exact List.dropWhile_idempotent _ _

/-- C4, counterexample.  The claim states that on noisy input the comma
split of a data line drops tokens that are empty after trimming (like the
header split).  On the data line `"1,,2"` the code's comma row split keeps
the empty middle token (route.ts 181 has no filter), so given the header
`["a","b","c"]` the extracted Row maps `"b"` to the empty string instead
of receiving the two-token split the claim predicts. -/
theorem comma_row_split_keeps_empties :
    splitRowTokens PDelim.comma "1,,2".toList = [['1'], [], ['2']] ∧
    ((splitOnChar ',' "1,,2".toList).map trim).filter (fun t => decide (t ≠ [])) =
      [['1'], ['2']] ∧
    splitRowTokens PDelim.comma "1,,2".toList ≠
      ((splitOnChar ',' "1,,2".toList).map trim).filter (fun t => decide (t ≠ [])) ∧
    rowsAfterHeader PDelim.comma [['a'], ['b'], ['c']] ["1,,2".toList] =
      [[(['a'], ['1']), (['b'], []), (['c'], ['2'])]] := by decide

/-- C4, amended.  In the delimited-row extractor on noisy input, every
data-line token is trimmed, the space-run data split additionally drops
tokens that are empty after trimming (so it coincides with the header
split), while the comma and tab data splits keep empty tokens; for every
delimiter the header split is exactly the data split with the
empty-after-trim tokens removed. -/
theorem row_split_vs_header_split (d : PDelim) (l : List Char) :
    splitRowTokens PDelim.space l = splitHeaderTokens PDelim.space l ∧
    splitHeaderTokens d l = (splitRowTokens d l).filter (fun t => decide (t ≠ [])) ∧
    ∀ t ∈ splitRowTokens d l, trim t = t := by
  refine ⟨rfl, ?_, ?_⟩
  · cases d <;> simp [splitHeaderTokens, splitRowTokens, List.filter_filter]
  · intro t ht
    cases d <;> simp [splitRowTokens] at ht
    · obtain ⟨⟨u, _, hu⟩, _⟩ := ht
      rw [← hu]
      exact trim_idem u
    · obtain ⟨u, _, hu⟩ := ht
      rw [← hu]
      exact trim_idem u
    · obtain ⟨u, _, hu⟩ := ht
      rw [← hu]
      exact trim_idem u

/-- C5: in the delimited-row extractor on noisy input with a header of
length `H` (pairwise-distinct headers), a line after the header produces a
Row iff its token count `T` satisfies `max 2 (H-1) ≤ T ≤ H+1`, and the Row
is the positional zip of headers with tokens: when `T < H` the zip ends at
the tokens, omitting the trailing header keys, and when `T > H` it ends at
the headers, dropping the extra trailing tokens. -/
theorem tolerant_row_acceptance (d : PDelim) (hs : List Tok)
    (ls : List (List Char)) (hnd : hs.Nodup) :
    rowsAfterHeader d hs ls =
      (ls.filter (fun l => decide (max 2 (hs.length - 1) ≤ (splitRowTokens d l).length ∧
          (splitRowTokens d l).length ≤ hs.length + 1))).map
        (fun l => hs.zip (splitRowTokens d l)) := by
  unfold rowsAfterHeader
  rw [filterMap_ite (fun l => max 2 (hs.length - 1) ≤ (splitRowTokens d l).length ∧
      (splitRowTokens d l).length ≤ hs.length + 1)
    (fun l => buildRow hs (splitRowTokens d l)) ls]
  congr 1
  funext l
  exact buildRow_eq_zip hs (splitRowTokens d l) hnd

/-- C5 witness: a concrete header of length 3 accepts a 2-token line and
rejects a 1-token and a 5-token line. -/
theorem tolerant_row_acceptance_witness :
    ([['a'], ['b'], ['c']] : List Tok).Nodup ∧
    rowsAfterHeader PDelim.space [['a'], ['b'], ['c']]
        ["x  y".toList, "u".toList, "p  q  r  s  t".toList] =
      (["x  y".toList, "u".toList, "p  q  r  s  t".toList].filter
        (fun l => decide (max 2 (([['a'], ['b'], ['c']] : List Tok).length - 1) ≤
            (splitRowTokens PDelim.space l).length ∧
          (splitRowTokens PDelim.space l).length ≤
            ([['a'], ['b'], ['c']] : List Tok).length + 1))).map
        (fun l => ([['a'], ['b'], ['c']] : List Tok).zip (splitRowTokens PDelim.space l)) :=
  ⟨by decide, tolerant_row_acceptance PDelim.space [['a'], ['b'], ['c']]
    ["x  y".toList, "u".toList, "p  q  r  s  t".toList] (by decide)⟩

/-! ## Row-shape lemmas (claim C3) -/

/-- Every row of the tolerant extractor is a positional build over the
headers. -/
theorem mem_rowsAfterHeader (d : PDelim) (hs : List Tok) (ls : List (List Char))
    (r : Row) (h : r ∈ rowsAfterHeader d hs ls) : ∃ vs, r = buildRow hs vs := by
  unfold rowsAfterHeader at h
  rw [List.mem_filterMap] at h
  obtain ⟨l, _, hl⟩ := h
  simp only at hl
  split at hl
  · exact ⟨_, (Option.some_injective _ hl).symm⟩
  · simp at hl

/-- Every fallback row is a positional build over the generic headers. -/
theorem mem_patternRows (lines : List (List Char)) (n : Nat) (r : Row)
    (h : r ∈ patternRows lines n) :
    ∃ ws, ws.length = n ∧ r = buildRow (genericHeaders n) ws := by
  unfold patternRows at h
  rw [List.mem_filterMap] at h
  obtain ⟨l, _, hl⟩ := h
  simp only at hl
  split at hl
  · next hlen => exact ⟨_, hlen, (Option.some_injective _ hl).symm⟩
  · simp at hl

/-- Every row of the fallback extractor is a positional build over its
header list. -/
theorem extractFallbackHR_rows_shape (lines : List (List Char)) :
    ∀ r ∈ (extractFallbackHR lines).2,
      ∃ vs, r = buildRow (extractFallbackHR lines).1 vs := by
  unfold extractFallbackHR
  dsimp only
  split
  · split
    · intro r hr
      simp only at hr ⊢
      obtain ⟨ws, _, hws⟩ := mem_patternRows _ _ r hr
      exact ⟨ws, hws⟩
    · intro r hr
      simp at hr
  · intro r hr
    simp at hr

/-- Every row of the noisy extraction is a positional build over its
header list. -/
theorem extractNoisyHR_rows_shape (lines : List (List Char)) :
    ∀ r ∈ (extractNoisyHR lines).2,
      ∃ vs, r = buildRow (extractNoisyHR lines).1 vs := by
  unfold extractNoisyHR
  dsimp only
  split
  · split
    · split
      · intro r hr
        simp only at hr ⊢
        exact mem_rowsAfterHeader _ _ _ r hr
      · exact extractFallbackHR_rows_shape lines
    · exact extractFallbackHR_rows_shape lines
  · intro r hr
    exact absurd hr (List.not_mem_nil r)

/-- Every row of the clean extraction is a positional build over its
header list, with exactly as many values as headers. -/
theorem extractClean_rows_shape (lines : List (List Char)) :
    ∀ r ∈ (extractClean lines).2,
      ∃ vs, vs.length = (extractClean lines).1.length ∧
        r = buildRow (extractClean lines).1 vs := by
  unfold extractClean
  dsimp only
  split
  · intro r hr
    simp only at hr ⊢
    rw [List.mem_filterMap] at hr
    obtain ⟨l, _, hl⟩ := hr
    split at hl
    · next hlen => exact ⟨_, hlen, (Option.some_injective _ hl).symm⟩
    · simp at hl
  · intro r hr
    simp at hr

/-- C3, counterexample.  The claim states that all Rows of one extraction
attempt share the same ordered set of header keys.  On the noisy text
`"A  B  C\nx  y  z\np  q"` the extraction produces two Rows whose key
lists are `["A","B","C"]` and `["A","B"]`: the two-token line is accepted
by the ±1 tolerance and its Row omits the trailing header key. -/
theorem rows_unequal_keys_example :
    ((extractNoisyText "A  B  C\nx  y  z\np  q".toList).2.map rowKeys) =
      [[['A'], ['B'], ['C']], [['A'], ['B']]] ∧
    ¬ ∀ r ∈ (extractNoisyText "A  B  C\nx  y  z\np  q".toList).2,
        rowKeys r = (extractNoisyText "A  B  C\nx  y  z\np  q".toList).1 := by decide

/-- C3, amended.  For every input text and extraction attempt with
pairwise-distinct headers: in the noisy path every Row's ordered key list
is a prefix of the attempt's header list (equal exactly when the line's
token count reaches the header count), and in the clean path every Row
carries exactly the attempt's ordered header keys. -/
theorem row_keys_prefix_of_headers (text : List Char)
    (h1 : (extractNoisyText text).1.Nodup) (h2 : (extractCleanText text).1.Nodup) :
    (∀ r ∈ (extractNoisyText text).2, rowKeys r <+: (extractNoisyText text).1) ∧
    (∀ r ∈ (extractCleanText text).2, rowKeys r = (extractCleanText text).1) := by
  unfold extractNoisyText at h1 ⊢
  unfold extractCleanText at h2 ⊢
  constructor
  · intro r hr
    obtain ⟨vs, hvs⟩ := extractNoisyHR_rows_shape (normalizeLines text) r hr
    rw [hvs, buildRow_eq_zip _ _ h1]
    rw [rowKeys, map_fst_zip_eq_take]
    exact List.take_prefix _ _
  · intro r hr
    obtain ⟨vs, hlen, hvs⟩ := extractClean_rows_shape (normalizeLines text) r hr
    rw [hvs, buildRow_eq_zip _ _ h2]
    rw [rowKeys, map_fst_zip_eq_take, hlen]
    exact List.take_length _

/-- C3 witness: a concrete text on which both paths have distinct headers
and the amended key property holds. -/
theorem row_keys_prefix_of_headers_witness :
    ((extractNoisyText "A  B  C\nx  y  z\np  q".toList).1.Nodup ∧
      (extractCleanText "A  B  C\nx  y  z\np  q".toList).1.Nodup) ∧
    ((∀ r ∈ (extractNoisyText "A  B  C\nx  y  z\np  q".toList).2,
        rowKeys r <+: (extractNoisyText "A  B  C\nx  y  z\np  q".toList).1) ∧
      (∀ r ∈ (extractCleanText "A  B  C\nx  y  z\np  q".toList).2,
        rowKeys r = (extractCleanText "A  B  C\nx  y  z\np  q".toList).1)) :=
  ⟨⟨by decide, by decide⟩,
    row_keys_prefix_of_headers "A  B  C\nx  y  z\np  q".toList (by decide) (by decide)⟩

/-! ## Histogram machinery (claims C6, C10) -/

/-- The number of lines whose word count is `k`. -/
def freqOf (lines : List (List Char)) (k : Nat) : Nat :=
  lines.countP (fun l => decide (wordCount l = k))

/-- Invariant tying the insertion-ordered histogram to the processed
lines: keys are distinct, every entry stores the true frequency, and
every processed line's word count has an entry. -/
def histInv (seen : List (List Char)) (h : List (Nat × Nat)) : Prop :=
  (h.map Prod.fst).Nodup ∧
  (∀ p ∈ h, p.2 = freqOf seen p.1) ∧
  (∀ l ∈ seen, wordCount l ∈ h.map Prod.fst)

/-- Appending one line changes a frequency by at most its own count. -/
theorem freqOf_append_single (seen : List (List Char)) (l : List Char) (j : Nat) :
    freqOf (seen ++ [l]) j = freqOf seen j + (if wordCount l = j then 1 else 0) := by
  unfold freqOf
  rw [List.countP_append]
  congr 1
  by_cases h : wordCount l = j <;> simp [List.countP_cons, h]

/-- The histogram update preserves the invariant. -/
theorem histInv_histAdd (seen : List (List Char)) (h : List (Nat × Nat)) (l : List Char)
    (hi : histInv seen h) : histInv (seen ++ [l]) (histAdd h (wordCount l)) := by
  obtain ⟨hnd, hfreq, hmem⟩ := hi
  unfold histAdd
  by_cases hin : h.any (fun p => decide (p.1 = wordCount l)) = true
  · rw [if_pos hin]
    have hfst : (h.map (fun p => if p.1 = wordCount l then (wordCount l, p.2 + 1) else p)).map
        Prod.fst = h.map Prod.fst := by
      rw [List.map_map]
      apply List.map_congr_left
      intro p _
      by_cases hpk : p.1 = wordCount l <;> simp [hpk]
    refine ⟨by rw [hfst]; exact hnd, ?_, ?_⟩
    · intro p hp
      rw [List.mem_map] at hp
      obtain ⟨q, hq, hqe⟩ := hp
      by_cases hqk : q.1 = wordCount l
      · rw [if_pos hqk] at hqe
        rw [← hqe]
        simp only
        rw [freqOf_append_single, if_pos rfl, ← hqk, ← hfreq q hq]
      · rw [if_neg hqk] at hqe
        rw [← hqe]
        rw [freqOf_append_single, if_neg (fun he => hqk he.symm), ← hfreq q hq]
        omega
    · intro x hx
      rw [hfst]
      rcases List.mem_append.mp hx with hx' | hx'
      · exact hmem x hx'
      · rw [List.mem_singleton.mp hx']
        rw [List.any_eq_true] at hin
        obtain ⟨p, hp, hpk⟩ := hin
        rw [List.mem_map]
        exact ⟨p, hp, by simpa using hpk⟩
  · rw [if_neg hin]
    have hnot : wordCount l ∉ h.map Prod.fst := by
      intro hc
      rw [List.mem_map] at hc
      obtain ⟨p, hp, hpk⟩ := hc
      exact hin (List.any_eq_true.mpr ⟨p, hp, by simpa using hpk⟩)
    refine ⟨?_, ?_, ?_⟩
    · rw [List.map_append]
      simp only [List.map_cons, List.map_nil]
      rw [List.nodup_append]
      exact ⟨hnd, List.nodup_singleton _, by simpa using fun hc => hnot hc⟩
    · intro p hp
      rcases List.mem_append.mp hp with hp' | hp'
      · rw [freqOf_append_single, if_neg, ← hfreq p hp']
        · omega
        · intro he
          exact hnot (he ▸ List.mem_map.mpr ⟨p, hp', rfl⟩)
      · rw [List.mem_singleton.mp hp']
        simp only
        rw [freqOf_append_single, if_pos rfl]
        have hz : freqOf seen (wordCount l) = 0 := by
          rw [freqOf, List.countP_eq_zero]
          intro a ha
          simp only [decide_eq_true_eq]
          intro he
          exact hnot (he ▸ hmem a ha)
        rw [hz]
    · intro x hx
      rw [List.map_append]
      rcases List.mem_append.mp hx with hx' | hx'
      · exact List.mem_append.mpr (Or.inl (hmem x hx'))
      · rw [List.mem_singleton.mp hx']
        exact List.mem_append.mpr (Or.inr (by simp))

/-- The full histogram satisfies the invariant. -/
theorem wordHist_inv (lines : List (List Char)) : histInv lines (wordHist lines) := by
  have main : ∀ (ls seen : List (List Char)) (h : List (Nat × Nat)), histInv seen h →
      histInv (seen ++ ls) (ls.foldl (fun h l => histAdd h (wordCount l)) h) := by
    intro ls
    induction ls with
    | nil => intro seen h hi; simpa using hi
    | cons l t ih =>
      intro seen h hi
      have := ih (seen ++ [l]) _ (histInv_histAdd seen h l hi)
      simpa [List.append_assoc] using this
  have := main lines [] [] ⟨by simp, by simp, by simp⟩
  simpa [wordHist] using this

/-- The loop body of the winner scan. -/
def selStep (best p : Nat × Nat) : Nat × Nat :=
  if best.2 < p.2 ∧ 1 < p.1 then (p.1, p.2) else best

/-- The winner scan is the fold of its loop body. -/
theorem selectCommon_eq_foldl (h : List (Nat × Nat)) :
    selectCommon h = h.foldl selStep (0, 0) := rfl

/-- Specification of the winner scan: the result's frequency dominates
every qualifying entry (word count > 1), and the result is the initial
pair or one of the entries with word count > 1. -/
theorem foldl_selStep_spec (h : List (Nat × Nat)) (init : Nat × Nat) :
    init.2 ≤ (h.foldl selStep init).2 ∧
    (∀ p ∈ h, 1 < p.1 → p.2 ≤ (h.foldl selStep init).2) ∧
    ((h.foldl selStep init) = init ∨
      ((h.foldl selStep init) ∈ h ∧ 1 < (h.foldl selStep init).1)) := by
  induction h generalizing init with
  | nil => simp
  | cons p t ih =>
    simp only [List.foldl_cons]
    by_cases hc : init.2 < p.2 ∧ 1 < p.1
    · have hb : selStep init p = (p.1, p.2) := if_pos hc
      rw [hb]
      rcases ih (p.1, p.2) with ⟨h1, h2, h3⟩
      refine ⟨le_trans (le_of_lt hc.1) h1, ?_, ?_⟩
      · intro q hq hq1
        rcases List.mem_cons.mp hq with rfl | hq'
        · exact h1
        · exact h2 q hq' hq1
      · rcases h3 with he | ⟨hm, h1'⟩
        · right
          rw [he]
          exact ⟨by simp, hc.2⟩
        · right
          exact ⟨List.mem_cons_of_mem _ hm, h1'⟩
    · have hb : selStep init p = init := if_neg hc
      rw [hb]
      rcases ih init with ⟨h1, h2, h3⟩
      refine ⟨h1, ?_, ?_⟩
      · intro q hq hq1
        rcases List.mem_cons.mp hq with rfl | hq'
        · have hnlt : ¬ init.2 < q.2 := fun hlt => hc ⟨hlt, hq1⟩
          exact le_trans (Nat.le_of_not_lt hnlt) h1
        · exact h2 q hq' hq1
      · rcases h3 with he | ⟨hm, h1'⟩
        · exact Or.inl he
        · exact Or.inr ⟨List.mem_cons_of_mem _ hm, h1'⟩

/-- The winner's frequency dominates the frequency of every word count
of at least 2. -/
theorem selectCommon_max (lines : List (List Char)) :
    ∀ k, 2 ≤ k → freqOf lines k ≤ (selectCommon (wordHist lines)).2 := by
  intro k hk
  by_cases hz : freqOf lines k = 0
  · rw [hz]
    exact Nat.zero_le _
  · have hex : ∃ l ∈ lines, wordCount l = k := by
      by_contra hno
      push_neg at hno
      apply hz
      rw [freqOf, List.countP_eq_zero]
      intro a ha
      simpa using hno a ha
    obtain ⟨l, hl, hlk⟩ := hex
    obtain ⟨hnd, hfreq, hmem⟩ := wordHist_inv lines
    have hkmem : k ∈ (wordHist lines).map Prod.fst := hlk ▸ hmem l hl
    rw [List.mem_map] at hkmem
    obtain ⟨p, hp, hpk⟩ := hkmem
    rw [selectCommon_eq_foldl]
    have h2 := (foldl_selStep_spec (wordHist lines) (0, 0)).2.1 p hp (by omega)
    calc freqOf lines k = p.2 := by rw [hfreq p hp, hpk]
    _ ≤ _ := h2

/-- When the winner scan selected anything, the selection is a word count
of at least 2 whose stored frequency is its true frequency. -/
theorem selectCommon_sound (lines : List (List Char))
    (h : (selectCommon (wordHist lines)).2 ≠ 0) :
    2 ≤ (selectCommon (wordHist lines)).1 ∧
    (selectCommon (wordHist lines)).2 = freqOf lines (selectCommon (wordHist lines)).1 := by
  obtain ⟨hnd, hfreq, hmem⟩ := wordHist_inv lines
  rcases (foldl_selStep_spec (wordHist lines) (0, 0)).2.2 with he | ⟨hm, h1⟩
  · rw [selectCommon_eq_foldl, he] at h
    simp at h
  · rw [selectCommon_eq_foldl] at h ⊢
    exact ⟨h1, hfreq _ hm⟩

/-- The fallback rows are exactly the lines with the winning word count,
mapped to generic-header rows. -/
theorem patternRows_eq (lines : List (List Char)) (n : Nat) :
    patternRows lines n =
      (lines.filter (fun l => decide (wordCount l = n))).map
        (fun l => buildRow (genericHeaders n) (splitRunGE 1 l)) := by
  unfold patternRows
  exact filterMap_ite (fun l => wordCount l = n)
    (fun l => buildRow (genericHeaders n) (splitRunGE 1 l)) lines

/-- One fallback row per line with the winning word count. -/
theorem patternRows_length (lines : List (List Char)) (n : Nat) :
    (patternRows lines n).length = freqOf lines n := by
  rw [patternRows_eq, List.length_map, freqOf, List.countP_eq_length_filter]

/-- When the winning frequency reaches 3 the fallback fires. -/
theorem extractFallbackHR_accept (lines : List (List Char))
    (h3 : 3 ≤ (selectCommon (wordHist lines)).2) :
    extractFallbackHR lines =
      (genericHeaders (selectCommon (wordHist lines)).1,
        patternRows lines (selectCommon (wordHist lines)).1) := by
  have hs := selectCommon_sound lines (by omega)
  have hpr : (patternRows lines (selectCommon (wordHist lines)).1).length ≠ 0 := by
    rw [patternRows_length, ← hs.2]
    omega
  simp only [extractFallbackHR]
  rw [if_pos ⟨h3, hs.1⟩, if_pos]
  intro he
  rw [he] at hpr
  simp at hpr

/-- When the winning frequency stays below 3 the fallback yields the
empty result. -/
theorem extractFallbackHR_reject (lines : List (List Char))
    (h3 : (selectCommon (wordHist lines)).2 < 3) :
    extractFallbackHR lines = ([], []) := by
  simp only [extractFallbackHR]
  rw [if_neg]
  intro hc
  exact absurd hc.1 (by omega)

/-- C6: the pattern-frequency fallback selects a whitespace-token count
of at least 2 whose frequency dominates the frequency of every count of
at least 2; it fires only when that winning frequency reaches 3, in which
case it synthesizes the generic headers `Column1 … ColumnN` for the
winning count `N` and emits one Row for exactly the lines whose
whitespace-token count equals `N`; otherwise it returns the empty
result. -/
theorem fallback_selection_and_emission (lines : List (List Char)) :
    (∀ k, 2 ≤ k → freqOf lines k ≤ (selectCommon (wordHist lines)).2) ∧
    ((selectCommon (wordHist lines)).2 ≠ 0 →
      2 ≤ (selectCommon (wordHist lines)).1 ∧
      (selectCommon (wordHist lines)).2 =
        freqOf lines (selectCommon (wordHist lines)).1) ∧
    (3 ≤ (selectCommon (wordHist lines)).2 →
      extractFallbackHR lines =
        (genericHeaders (selectCommon (wordHist lines)).1,
          (lines.filter
              (fun l => decide (wordCount l = (selectCommon (wordHist lines)).1))).map
            (fun l => buildRow (genericHeaders (selectCommon (wordHist lines)).1)
              (splitRunGE 1 l)))) ∧
    ((selectCommon (wordHist lines)).2 < 3 → extractFallbackHR lines = ([], [])) :=
  ⟨selectCommon_max lines, selectCommon_sound lines,
    fun h3 => by rw [extractFallbackHR_accept lines h3, patternRows_eq],
    extractFallbackHR_reject lines⟩

/-- C6 witness: three two-word lines and one one-word line make the
fallback fire with winning count 2 and frequency 3. -/
theorem fallback_selection_and_emission_witness :
    3 ≤ (selectCommon (wordHist ["a b".toList, "c d".toList, "e f".toList, "x".toList])).2 ∧
    extractFallbackHR ["a b".toList, "c d".toList, "e f".toList, "x".toList] =
      (genericHeaders
          (selectCommon (wordHist ["a b".toList, "c d".toList, "e f".toList, "x".toList])).1,
        (["a b".toList, "c d".toList, "e f".toList, "x".toList].filter
            (fun l => decide (wordCount l =
              (selectCommon
                (wordHist ["a b".toList, "c d".toList, "e f".toList, "x".toList])).1))).map
          (fun l => buildRow
            (genericHeaders
              (selectCommon
                (wordHist ["a b".toList, "c d".toList, "e f".toList, "x".toList])).1)
            (splitRunGE 1 l))) :=
  ⟨by decide,
    (fallback_selection_and_emission
      ["a b".toList, "c d".toList, "e f".toList, "x".toList]).2.2.1 (by decide)⟩

/-- C10: whenever the pattern-frequency fallback returns a non-empty row
list, that list has at least 3 Rows; its length equals the winning
frequency, and the rows are exactly the pattern rows of the winning
count. -/
theorem fallback_nonempty_gives_three_rows (lines : List (List Char))
    (h : (extractFallbackHR lines).2 ≠ []) :
    3 ≤ (extractFallbackHR lines).2.length ∧
    (extractFallbackHR lines).2.length = (selectCommon (wordHist lines)).2 ∧
    (extractFallbackHR lines).2 = patternRows lines (selectCommon (wordHist lines)).1 := by
  by_cases h3 : 3 ≤ (selectCommon (wordHist lines)).2
  · rw [extractFallbackHR_accept lines h3]
    refine ⟨?_, ?_, rfl⟩
    · rw [patternRows_length, ← (selectCommon_sound lines (by omega)).2]
      omega
    · rw [patternRows_length, ← (selectCommon_sound lines (by omega)).2]
  · exfalso
    apply h
    rw [extractFallbackHR_reject lines (by omega)]

/-- C10 witness: a fallback run that returns rows indeed returns at least
three of them. -/
theorem fallback_nonempty_gives_three_rows_witness :
    (extractFallbackHR ["p q r".toList, "s t u".toList, "v w x".toList]).2 ≠ [] ∧
    (3 ≤ (extractFallbackHR ["p q r".toList, "s t u".toList, "v w x".toList]).2.length ∧
      (extractFallbackHR ["p q r".toList, "s t u".toList, "v w x".toList]).2.length =
        (selectCommon (wordHist ["p q r".toList, "s t u".toList, "v w x".toList])).2 ∧
      (extractFallbackHR ["p q r".toList, "s t u".toList, "v w x".toList]).2 =
        patternRows ["p q r".toList, "s t u".toList, "v w x".toList]
          (selectCommon (wordHist ["p q r".toList, "s t u".toList, "v w x".toList])).1) :=
  ⟨by decide,
    fallback_nonempty_gives_three_rows
      ["p q r".toList, "s t u".toList, "v w x".toList] (by decide)⟩

/-! ## Clean-path lemmas (claims C7, C8, C9) -/

/-- Unfolding of the clean extractor on multi-line input. -/
theorem extractClean_eq (lines : List (List Char)) (h : 1 < lines.length) :
    extractClean lines =
      (splitClean (chooseCleanDelim (lines.getD 0 [])) (lines.getD 0 []),
        (lines.drop 1).filterMap (fun l =>
          if (splitClean (chooseCleanDelim (lines.getD 0 [])) l).length =
              (splitClean (chooseCleanDelim (lines.getD 0 [])) (lines.getD 0 [])).length then
            some (buildRow (splitClean (chooseCleanDelim (lines.getD 0 [])) (lines.getD 0 []))
              (splitClean (chooseCleanDelim (lines.getD 0 [])) l))
          else none)) := by
  unfold extractClean
  rw [if_pos h]

/-- C7: in the strict clean-text extractor the delimiter is chosen exactly
once by testing only the first line, in priority order tab, comma,
semicolon, generic-whitespace, and that single delimiter is used to split
the header line and every data line of the file. -/
theorem clean_delimiter_single_pass (lines : List (List Char)) (h : 1 < lines.length) :
    (('\t' ∈ lines.getD 0 [] → chooseCleanDelim (lines.getD 0 []) = CDelim.tab) ∧
      ('\t' ∉ lines.getD 0 [] → ',' ∈ lines.getD 0 [] →
        chooseCleanDelim (lines.getD 0 []) = CDelim.comma) ∧
      ('\t' ∉ lines.getD 0 [] → ',' ∉ lines.getD 0 [] → ';' ∈ lines.getD 0 [] →
        chooseCleanDelim (lines.getD 0 []) = CDelim.semi) ∧
      ('\t' ∉ lines.getD 0 [] → ',' ∉ lines.getD 0 [] → ';' ∉ lines.getD 0 [] →
        chooseCleanDelim (lines.getD 0 []) = CDelim.ws)) ∧
    (extractClean lines).1 =
      splitClean (chooseCleanDelim (lines.getD 0 [])) (lines.getD 0 []) ∧
    (extractClean lines).2 = (lines.drop 1).filterMap (fun l =>
      if (splitClean (chooseCleanDelim (lines.getD 0 [])) l).length =
          (extractClean lines).1.length then
        some (buildRow (extractClean lines).1
          (splitClean (chooseCleanDelim (lines.getD 0 [])) l))
      else none) := by
  refine ⟨⟨?_, ?_, ?_, ?_⟩, ?_, ?_⟩
  · intro h1
    unfold chooseCleanDelim
    rw [if_pos h1]
  · intro h1 h2
    unfold chooseCleanDelim
    rw [if_neg h1, if_pos h2]
  · intro h1 h2 h3
    unfold chooseCleanDelim
    rw [if_neg h1, if_neg h2, if_pos h3]
  · intro h1 h2 h3
    unfold chooseCleanDelim
    rw [if_neg h1, if_neg h2, if_neg h3]
  · rw [extractClean_eq lines h]
  · rw [extractClean_eq lines h]

/-- C7 witness: a concrete two-line comma file. -/
theorem clean_delimiter_single_pass_witness :
    1 < (["a,b".toList, "1,2".toList] : List (List Char)).length ∧
    (extractClean ["a,b".toList, "1,2".toList]).1 =
      splitClean (chooseCleanDelim (["a,b".toList, "1,2".toList].getD 0 []))
        (["a,b".toList, "1,2".toList].getD 0 []) :=
  ⟨by decide, (clean_delimiter_single_pass ["a,b".toList, "1,2".toList] (by decide)).2.1⟩

/-- C8: in the strict clean-text extractor a data line produces a Row iff
its token count exactly equals the header count, and on the clean input
`"a,b,c\n1,2\n3,4,5,6"` the headers are `["a","b","c"]` and both data
lines are dropped, yielding an empty row sequence. -/
theorem clean_exact_match_rows (lines : List (List Char)) (h : 1 < lines.length) :
    (extractClean lines).2 =
      ((lines.drop 1).filter (fun l =>
          decide ((splitClean (chooseCleanDelim (lines.getD 0 [])) l).length =
            (extractClean lines).1.length))).map
        (fun l => buildRow (extractClean lines).1
          (splitClean (chooseCleanDelim (lines.getD 0 [])) l)) ∧
    extractCleanText "a,b,c\n1,2\n3,4,5,6".toList = ([['a'], ['b'], ['c']], []) := by
  constructor
  · rw [extractClean_eq lines h]
    exact filterMap_ite _ _ _
  · decide

/-- C8 witness: a clean file where one data line matches the header count
and one does not. -/
theorem clean_exact_match_rows_witness :
    1 < (["a,b".toList, "1,2".toList, "1,2,3".toList] : List (List Char)).length ∧
    extractCleanText "a,b,c\n1,2\n3,4,5,6".toList = ([['a'], ['b'], ['c']], []) :=
  ⟨by decide,
    (clean_exact_match_rows ["a,b".toList, "1,2".toList, "1,2,3".toList] (by decide)).2⟩

/-- The synthesized generic headers are never empty strings. -/
theorem genericHeaders_ne_nil (n : Nat) : ∀ t ∈ genericHeaders n, t ≠ [] := by
  intro t ht
  unfold genericHeaders at ht
  rw [List.mem_map] at ht
  obtain ⟨i, _, hi⟩ := ht
  rw [← hi]
  intro he
  have he' : ("Column".data ++ (toString (i + 1)).data) = ([] : List Char) := by
    rw [← String.data_append]
    exact he
  simp at he'

/-- Noisy header splits never produce empty tokens. -/
theorem splitHeaderTokens_ne_nil (d : PDelim) (l : List Char) :
    ∀ t ∈ splitHeaderTokens d l, t ≠ [] := by
  intro t ht
  cases d <;> simp [splitHeaderTokens] at ht <;> exact ht.2

/-- The fallback extractor's headers are never empty strings. -/
theorem extractFallbackHR_headers_ne_nil (lines : List (List Char)) :
    ∀ t ∈ (extractFallbackHR lines).1, t ≠ [] := by
  unfold extractFallbackHR
  dsimp only
  split
  · split
    · exact genericHeaders_ne_nil _
    · intro t ht
      exact absurd ht (List.not_mem_nil t)
  · intro t ht
    exact absurd ht (List.not_mem_nil t)

/-- The noisy extraction's headers are never empty strings. -/
theorem extractNoisyHR_headers_ne_nil (lines : List (List Char)) :
    ∀ t ∈ (extractNoisyHR lines).1, t ≠ [] := by
  unfold extractNoisyHR
  dsimp only
  split
  · split
    · split
      · exact splitHeaderTokens_ne_nil _ _
      · exact extractFallbackHR_headers_ne_nil lines
    · exact extractFallbackHR_headers_ne_nil lines
  · intro t ht
    exact absurd ht (List.not_mem_nil t)

/-- C9, counterexample.  The claim states that every extraction drops
header tokens that trim to empty.  On the clean input `"a,,b\nx,y,z"` the
comma header split at route.ts 294-295 maps trim over the tokens but does
not filter them, so the produced header list contains the empty string. -/
theorem clean_header_empty_token_example :
    (extractCleanText "a,,b\nx,y,z".toList).1 = [['a'], [], ['b']] ∧
    [] ∈ (extractCleanText "a,,b\nx,y,z".toList).1 := by decide

/-- C9, amended.  In the noisy paths (delimiter-based and fallback) the
produced header list contains no empty strings, and in the strict
clean-text extractor tokens that trim to empty are dropped only for the
generic-whitespace delimiter; with a literal delimiter the clean header
split trims tokens but keeps empty ones. -/
theorem headers_nonempty_noisy_and_ws (lines : List (List Char)) :
    (∀ t ∈ (extractNoisyHR lines).1, t ≠ []) ∧
    (chooseCleanDelim (lines.getD 0 []) = CDelim.ws →
      ∀ t ∈ (extractClean lines).1, t ≠ []) := by
  refine ⟨extractNoisyHR_headers_ne_nil lines, ?_⟩
  intro hws t ht
  unfold extractClean at ht
  dsimp only at ht
  split at ht
  · rw [hws] at ht
    simp [splitClean] at ht
    intro he
    rw [he] at ht
    exact ht.2 rfl
  · exact absurd ht (List.not_mem_nil t)

/-- C9 witness: a concrete noisy input with nonempty headers and a
whitespace-delimited clean first line. -/
theorem headers_nonempty_noisy_and_ws_witness :
    (∀ t ∈ (extractNoisyHR ["A  B".toList, "x  y".toList]).1, t ≠ []) ∧
    (chooseCleanDelim (["A  B".toList, "x  y".toList].getD 0 []) = CDelim.ws →
      ∀ t ∈ (extractClean ["A  B".toList, "x  y".toList]).1, t ≠ []) :=
  headers_nonempty_noisy_and_ws ["A  B".toList, "x  y".toList]
